import Mathlib

/-!
Verification of the filtering/sorting/merge pipeline and the local-storage
annotation backend of the `github-star-list` web application.

JavaScript strings are modelled as lists of Unicode code points (`JStr`),
`localStorage` as an association list from key strings to value strings,
and asynchronous storage calls as direct state passing (the application is
single-threaded and every modelled operation resolves immediately).
A JavaScript expression that throws is modelled by `Option`/`Except`
(`none`/`.error` = a thrown exception).
-/

set_option maxHeartbeats 1000000

/-- A JavaScript string, as its list of Unicode code points. -/
abbrev JStr := List Nat

/-- Embed a Lean string literal as a `JStr` (code points). -/
def jstr (s : String) : JStr := s.data.map Char.toNat

/-- `String.prototype.toLowerCase` on one code point (ASCII range, which is
all the source ever feeds it: tags, search text, repository names). -/
def lowerChar (c : Nat) : Nat := if 65 ≤ c ∧ c ≤ 90 then c + 32 else c

/-- `String.prototype.toLowerCase`. -/
def jsToLower (s : JStr) : JStr := s.map lowerChar

/-- White-space test used by `String.prototype.trim` (ASCII white space). -/
def isWS (c : Nat) : Bool := c == 32 || (9 ≤ c && c ≤ 13)

/-- `String.prototype.trim`: drop white space from both ends. -/
def jsTrim (s : JStr) : JStr := ((s.dropWhile isWS).reverse.dropWhile isWS).reverse

/-- `String.prototype.includes`: substring containment. -/
def jsIncludes (s pat : JStr) : Bool :=
  if pat.isPrefixOf s then true
  else
    match s with
    | [] => false
    | _ :: t => jsIncludes t pat

/-- Decimal digit accumulation for `natToStr` (fuelled; the fuel is
always initialised to the number itself, which suffices since each step
divides by ten). -/
def natToStrAux : Nat → Nat → JStr → JStr
  | 0, _, acc => acc
  | fuel + 1, n, acc =>
    if n = 0 then acc else natToStrAux fuel (n / 10) ((48 + n % 10) :: acc)

/-- JavaScript number-to-string coercion for a natural number
(as happens in `STORAGE_KEYS.CUSTOM_TAGS_PREFIX + repoId`). -/
def natToStr (n : Nat) : JStr := if n = 0 then [48] else natToStrAux n n []

/-- `parseInt` (restricted to the non-negative decimal strings the
application produces; `none` models `NaN`). -/
def jsParseInt (s : JStr) : Option Nat :=
  let ds := s.takeWhile (fun c => decide (48 ≤ c) && decide (c ≤ 57))
  if ds.isEmpty then none
  else some (ds.foldl (fun acc c => acc * 10 + (c - 48)) 0)

/-! ## localStorage -/

/-- The `localStorage` key/value store: an association list with unique
keys, kept in insertion order (matching `localStorage.key(i)` iteration). -/
abbrev Storage := List (JStr × JStr)

/-- `localStorage.getItem` (`none` = `null`). -/
def lookupKey (st : Storage) (k : JStr) : Option JStr :=
  match st with
  | [] => none
  | (k', v) :: t => if k' = k then some v else lookupKey t k

/-- `localStorage.setItem`: overwrite in place, or append a new entry. -/
def setItem (st : Storage) (k v : JStr) : Storage :=
  match st with
  | [] => [(k, v)]
  | (k', v') :: t => if k' = k then (k, v) :: t else (k', v') :: setItem t k v

/-- `localStorage.removeItem`. -/
def removeItem (st : Storage) (k : JStr) : Storage :=
  match st with
  | [] => []
  | (k', v') :: t => if k' = k then t else (k', v') :: removeItem t k

/-- Keys of a store are pairwise distinct (`localStorage` invariant). -/
def KeysNodup (st : Storage) : Prop := (st.map Prod.fst).Nodup

/-! ## JSON serialisation of tag arrays

`setCustomTags` stores `JSON.stringify(tags)` and `getCustomTags` reads it
back with `JSON.parse`.  The encoder below is JSON restricted to the values
the application actually serialises; the parser accepts exactly the
encoder's output language (arrays of strings), `none` modelling a thrown
`SyntaxError` or a non-array result. -/

/-- JSON string escaping of one code point (34 = quote, 92 = backslash). -/
def escChar (c : Nat) : JStr := if c = 34 ∨ c = 92 then [92, c] else [c]

/-- JSON encoding of a string, surrounding quotes included. -/
def encStr (s : JStr) : JStr := 34 :: (s.flatMap escChar ++ [34])

/-- Comma-separated JSON encodings of the strings of a list. -/
def encList : List JStr → JStr
  | [] => []
  | [t] => encStr t
  | t :: t' :: ts => encStr t ++ 44 :: encList (t' :: ts)

/-- `JSON.stringify` of an array of strings (91 = `[`, 93 = `]`). -/
def encTags (ts : List JStr) : JStr := 91 :: (encList ts ++ [93])

/-- Parse a JSON string body after its opening quote; returns the decoded
string and the input remaining after the closing quote. -/
def parseStrBody : JStr → Option (JStr × JStr)
  | [] => none
  | c :: rest =>
    if c = 34 then some ([], rest)
    else if c = 92 then
      match rest with
      | [] => none
      | c' :: rest' => (parseStrBody rest').map (fun p => (c' :: p.1, p.2))
    else (parseStrBody rest).map (fun p => (c :: p.1, p.2))

/-- Parse the comma-separated items of a non-empty JSON string array,
up to and including the closing bracket (fuelled recursion). -/
def parseItems : Nat → JStr → Option (List JStr)
  | 0, _ => none
  | fuel + 1, l =>
    match l with
    | 34 :: rest =>
      match parseStrBody rest with
      | some (s, 44 :: r2) => (parseItems fuel r2).map (fun ts => s :: ts)
      | some (s, [93]) => some [s]
      | _ => none
    | _ => none

/-- `JSON.parse` of a stored tag value, restricted to arrays of strings
(the only shape the application ever stores). -/
def parseTags (v : JStr) : Option (List JStr) :=
  match v with
  | 91 :: rest => if rest = [93] then some [] else parseItems rest.length rest
  | _ => none

/-! ## Storage keys (`src/js/utils/constants.js`) -/

/-- `STORAGE_KEYS.CUSTOM_TAGS_PREFIX = 'custom_tags_'`. -/
def CUSTOM_TAGS_K : JStr := jstr "custom_tags_"

/-- `STORAGE_KEYS.NOTES_PREFIX = 'notes_'`. -/
def NOTES_K : JStr := jstr "notes_"

/-- The key under which a repository's tags are stored. -/
def tagKey (repoId : Nat) : JStr := CUSTOM_TAGS_K ++ natToStr repoId

/-- The key under which a repository's notes are stored. -/
def noteKey (repoId : Nat) : JStr := NOTES_K ++ natToStr repoId

/-! ## Local backend (`src/js/services/customData.js`, localStorage path) -/

/-- `getCustomTags` (local path): read and `JSON.parse` the stored list;
a missing or falsy value, or a parse error, yields `[]`. -/
def getCustomTags (st : Storage) (repoId : Nat) : List JStr :=
  match lookupKey st (tagKey repoId) with
  | none => []
  | some v =>
    if v.isEmpty then []
    else
      match parseTags v with
      | none => []
      | some ts => ts

/-- `getNotes` (local path): `localStorage.getItem(key) || ''`. -/
def getNotes (st : Storage) (repoId : Nat) : JStr :=
  (lookupKey st (noteKey repoId)).getD []

/-- `setNotes` (local path): store the text as given when its trim is
non-empty, otherwise remove the key. -/
def setNotes (st : Storage) (repoId : Nat) (notes : JStr) : Storage :=
  if (jsTrim notes).isEmpty then removeItem st (noteKey repoId)
  else setItem st (noteKey repoId) notes

/-! ## JavaScript values (for the import payload) -/

/-- A JavaScript value, as far as `importCustomData` can observe one
(numbers restricted to integers). -/
inductive JVal where
  | undefined
  | null
  | bool (b : Bool)
  | num (n : Int)
  | str (s : JStr)
  | arr (elems : List JVal)
  | obj (fields : List (JStr × JVal))

/-- JavaScript truthiness. -/
def jTruthy : JVal → Bool
  | .undefined => false
  | .null => false
  | .bool b => b
  | .num n => decide (n ≠ 0)
  | .str s => !s.isEmpty
  | .arr _ => true
  | .obj _ => true

/-- Field lookup in an object's field list (`undefined` when missing). -/
def objGet : List (JStr × JVal) → JStr → JVal
  | [], _ => .undefined
  | (k', v) :: t, k => if k' = k then v else objGet t k

/-- Property access `v[k]` (`undefined` on primitives; the sole accesses
the source performs are on values already known not to be nullish). -/
def jGet (v : JVal) (k : JStr) : JVal :=
  match v with
  | .obj fields => objGet fields k
  | _ => .undefined

/-- `Object.entries` (for the truthy values `importCustomData` reaches:
objects list their fields, arrays and strings their indexed elements,
other primitives have no enumerable properties). -/
def jEntries : JVal → List (JStr × JVal)
  | .obj fields => fields
  | .arr l => l.enum.map (fun p => (natToStr p.1, p.2))
  | .str s => s.enum.map (fun p => (natToStr p.1, .str [p.2]))
  | _ => []

/-- Decimal rendering of an integer. -/
def intToStr (n : Int) : JStr := if n < 0 then 45 :: natToStr n.natAbs else natToStr n.toNat

mutual
/-- `JSON.stringify` (58 = `:`, 123/125 = braces; `undefined` is rendered
as `localStorage`'s string coercion would). -/
def jsonStringify : JVal → JStr
  | .undefined => jstr "undefined"
  | .null => jstr "null"
  | .bool b => if b then jstr "true" else jstr "false"
  | .num n => intToStr n
  | .str s => encStr s
  | .arr l => 91 :: (jsonStringifyList l ++ [93])
  | .obj fields => 123 :: (jsonStringifyFields fields ++ [125])

/-- Comma-separated `JSON.stringify` of array elements. -/
def jsonStringifyList : List JVal → JStr
  | [] => []
  | [v] => jsonStringify v
  | v :: v' :: t => jsonStringify v ++ 44 :: jsonStringifyList (v' :: t)

/-- Comma-separated `JSON.stringify` of object fields. -/
def jsonStringifyFields : List (JStr × JVal) → JStr
  | [] => []
  | [(k, v)] => encStr k ++ 58 :: jsonStringify v
  | (k, v) :: f :: t => encStr k ++ 58 :: jsonStringify v ++ 44 :: jsonStringifyFields (f :: t)
end

/-- The repository id string a stored key is rebuilt from during import:
`parseInt` result coerced back to a string (`"NaN"` when not parseable). -/
def idStrOf (s : JStr) : JStr :=
  match jsParseInt s with
  | some n => natToStr n
  | none => jstr "NaN"

/-- `setCustomTags` as called with an arbitrary decoded JSON value for the
tag list (the storage layer just stringifies whatever it is given). -/
def setCustomTagsRaw (st : Storage) (idStr : JStr) (v : JVal) : Storage :=
  setItem st (CUSTOM_TAGS_K ++ idStr) (jsonStringify v)

/-- `setCustomTags` (local path): overwrite the full stored tag list. -/
def setCustomTags (st : Storage) (repoId : Nat) (tags : List JStr) : Storage :=
  setCustomTagsRaw st (natToStr repoId) (.arr (tags.map .str))

/-- `setNotes` as called with an arbitrary decoded JSON value: a non-string
makes `notes.trim()` throw, which `setNotes`' own catch turns into a
failure return with the store unchanged. -/
def setNotesJ (st : Storage) (idStr : JStr) (v : JVal) : Storage :=
  match v with
  | .str s =>
    if (jsTrim s).isEmpty then removeItem st (NOTES_K ++ idStr)
    else setItem st (NOTES_K ++ idStr) s
  | _ => st

/-- `importCustomData`: validate that `data.tags` and `data.notes` are
truthy (otherwise throw, caught as a `false` return), then upsert every
tag entry and every notes entry.  Returns (success flag, new store). -/
def importCustomData (st : Storage) (data : JVal) : Bool × Storage :=
  if !jTruthy (jGet data (jstr "tags")) || !jTruthy (jGet data (jstr "notes")) then
    (false, st)
  else
    let st1 := (jEntries (jGet data (jstr "tags"))).foldl
      (fun s p => setCustomTagsRaw s (idStrOf p.1) p.2) st
    let st2 := (jEntries (jGet data (jstr "notes"))).foldl
      (fun s p => setNotesJ s (idStrOf p.1) p.2) st1
    (true, st2)

/-! ## Export (`getAllCustomData`) -/

/-- The export document `{ tags, notes, exportedAt }`; repository ids are
the key strings left after stripping the storage key head. -/
structure CustomData where
  tags : List (JStr × List JStr)
  notes : List (JStr × JStr)
  exportedAt : JStr

/-- Scan of every stored key in order, collecting tag entries (with
`JSON.parse`, whose failure aborts the export — there is no catch in
`getAllCustomData`) and notes entries. -/
def getAllCustomDataAux : Storage → Option (List (JStr × List JStr) × List (JStr × JStr))
  | [] => some ([], [])
  | (k, v) :: t =>
    if CUSTOM_TAGS_K.isPrefixOf k then
      match parseTags v with
      | none => none
      | some ts => (getAllCustomDataAux t).map (fun p => ((k.drop CUSTOM_TAGS_K.length, ts) :: p.1, p.2))
    else if NOTES_K.isPrefixOf k then
      (getAllCustomDataAux t).map (fun p => (p.1, (k.drop NOTES_K.length, v) :: p.2))
    else getAllCustomDataAux t

/-- `getAllCustomData`: the export document (`now` is the caller's clock
reading for `exportedAt`). -/
def getAllCustomData (st : Storage) (now : JStr) : Option CustomData :=
  (getAllCustomDataAux st).map (fun p => ⟨p.1, p.2, now⟩)

/-- The export document as the JSON value `importCustomData` receives
after a download/upload round trip. -/
def exportJVal (cd : CustomData) : JVal :=
  .obj [(jstr "tags", .obj (cd.tags.map (fun p => (p.1, .arr (p.2.map .str))))),
        (jstr "notes", .obj (cd.notes.map (fun p => (p.1, .str p.2)))),
        (jstr "exportedAt", .str cd.exportedAt)]

/-- Reachable-store invariant: every entry is either a tag entry holding
an encoded string array, or a notes entry whose text has non-empty trim
(the only shapes `setCustomTags`/`setNotes` produce), and keys are unique. -/
def WFStore (st : Storage) : Prop :=
  (∀ p ∈ st, (∃ id ts, p = (tagKey id, encTags ts)) ∨
             (∃ id nts, p = (noteKey id, nts) ∧ jsTrim nts ≠ [])) ∧
  KeysNodup st

/-! ## Repository records and merge -/

/-- `repo.owner`. -/
structure Owner where
  login : JStr
  avatar_url : JStr
deriving DecidableEq, Repr

/-- A repository record (fields the modelled subsystem touches); `Option`
fields model nullable/possibly-missing JSON fields. -/
structure Repo where
  id : Nat
  name : JStr
  full_name : JStr
  owner : Owner
  description : Option JStr
  language : Option JStr
  topics : Option (List JStr)
  stargazers_count : Nat
  updated_at : Nat
  html_url : JStr
  custom_tags : Option (List JStr)
  notes : Option JStr
deriving DecidableEq, Repr

/-- `mergeCustomData`: populate `custom_tags` and `notes` from the store,
leaving every other field unchanged. -/
def mergeCustomData (st : Storage) (repo : Repo) : Repo :=
  { repo with custom_tags := some (getCustomTags st repo.id),
              notes := some (getNotes st repo.id) }

/-! ## Tag-add operation (`src/js/ui/cards.js`, Enter-key handler) -/

/-- The Enter-key tag-add handler: a no-op unless the input's trim is
non-empty; the new tag is the trimmed, lowercased input; an existing tag
leaves state untouched, otherwise the tag is appended, stored, and the
in-memory record updated. Returns (new store, new in-memory record). -/
def addTag (st : Storage) (repo : Repo) (inputValue : JStr) : Storage × Repo :=
  if (jsTrim inputValue).isEmpty then (st, repo)
  else
    let newTag := jsToLower (jsTrim inputValue)
    let currentTags := repo.custom_tags.getD []
    if newTag ∈ currentTags then (st, repo)
    else
      let updatedTags := currentTags ++ [newTag]
      (setCustomTags st repo.id updatedTags, { repo with custom_tags := some updatedTags })

/-! ## Data loader (`loadStarsData`) -/

/-- The metadata object of the stars data file. -/
structure Metadata where
  lastUpdated : Option JStr
  username : JStr
  totalStars : Nat
  version : JStr
deriving DecidableEq, Repr

/-- The parsed JSON body of a fetch response; `none` components model a
missing/falsy `metadata` or a non-array `repositories`. -/
structure StarsPayload where
  metadata : Option Metadata
  repositories : Option (List Repo)
deriving DecidableEq

/-- Outcome of `fetch(CONFIG.DATA_FILE)` followed by `.json()`. -/
inductive FetchOutcome where
  | networkError
  | httpError (status : Nat)
  | parseError
  | success (body : StarsPayload)
deriving DecidableEq

/-- What `loadStarsData` returns to its caller. -/
structure StarsData where
  metadata : Option Metadata
  repositories : List Repo
deriving DecidableEq

/-- The fallback structure built in `loadStarsData`'s catch block
(`CONFIG.USERNAME = 'nicolasbagatello'`). -/
def fallbackStarsData : StarsData :=
  { metadata := some { lastUpdated := none, username := jstr "nicolasbagatello",
                       totalStars := 0, version := jstr "1.0" },
    repositories := [] }

/-- The body of `loadStarsData`'s try block; `.error` models a thrown
error (HTTP failure, parse failure, or failed shape validation). -/
def loadStarsBody : FetchOutcome → Except Unit StarsData
  | .networkError => .error ()
  | .httpError _ => .error ()
  | .parseError => .error ()
  | .success body =>
    match body.metadata, body.repositories with
    | some m, some rs => .ok { metadata := some m, repositories := rs }
    | _, _ => .error ()

/-- `loadStarsData`: try body, catch returns the fallback structure. -/
def loadStarsData (o : FetchOutcome) : StarsData :=
  match loadStarsBody o with
  | .ok d => d
  | .error _ => fallbackStarsData

/-- A fetch outcome that is malformed or unreachable in the claim's sense. -/
def badOutcome : FetchOutcome → Prop
  | .success body => body.metadata = none ∨ body.repositories = none
  | _ => True

/-! ## Filter/sort engine (`src/js/ui/filters.js`) -/

/-- Lexicographic comparison of code-point lists (the model of JavaScript
string comparison used by `Array.prototype.sort()`'s default comparator
and, at the granularity this subsystem needs, of `localeCompare`). -/
def lexLeB : List Nat → List Nat → Bool
  | [], _ => true
  | _ :: _, [] => false
  | a :: as, b :: bs => if a < b then true else if b < a then false else lexLeB as bs

/-- The current filter state (`currentFilters`). -/
structure Filters where
  search : JStr
  language : JStr
  topics : List JStr
  customTags : List JStr
  sort : JStr
deriving DecidableEq, Repr

/-- The default filter state. -/
def defaultFilters : Filters :=
  { search := [], language := [], topics := [], customTags := [], sort := jstr "stars-desc" }

/-- The search-filter callback on one record: each field is lowercased and
tested for containment; `||` short-circuits left to right, and a `null`
description reached by the second disjunct throws (`none`). -/
def searchPred (search : JStr) (repo : Repo) : Option Bool :=
  if jsIncludes (jsToLower repo.name) search then some true
  else
    match repo.description with
    | none => none
    | some d =>
      some (jsIncludes (jsToLower d) search
        || jsIncludes (jsToLower repo.full_name) search
        || jsIncludes (jsToLower repo.owner.login) search)

/-- `Array.prototype.filter` with a callback that can throw. -/
def optionFilter {α : Type} (p : α → Option Bool) : List α → Option (List α)
  | [] => some []
  | x :: xs =>
    match p x with
    | none => none
    | some b => (optionFilter p xs).map (fun ys => cond b (x :: ys) ys)

/-- The language-filter callback: `repo.language === currentFilters.language`. -/
def langPred (f : Filters) (r : Repo) : Bool := decide (r.language = some f.language)

/-- The topic-filter callback: every selected topic is contained in
`repo.topics` (a missing topics field fails the truthiness guard). -/
def topicPred (f : Filters) (r : Repo) : Bool :=
  f.topics.all (fun t =>
    match r.topics with
    | none => false
    | some l => decide (t ∈ l))

/-- The custom-tag-filter callback. -/
def tagPred (f : Filters) (r : Repo) : Bool :=
  f.customTags.all (fun t =>
    match r.custom_tags with
    | none => false
    | some l => decide (t ∈ l))

/-- `sortRepositories`: dispatch on the sort option string, defaulting to
stars-descending; `Array.prototype.sort` is modelled by a stable
comparison sort. -/
def sortRepositories (repos : List Repo) (sortOption : JStr) : List Repo :=
  if sortOption = jstr "stars-desc" then
    repos.insertionSort (fun a b => b.stargazers_count ≤ a.stargazers_count)
  else if sortOption = jstr "stars-asc" then
    repos.insertionSort (fun a b => a.stargazers_count ≤ b.stargazers_count)
  else if sortOption = jstr "name-asc" then
    repos.insertionSort (fun a b => lexLeB a.name b.name = true)
  else if sortOption = jstr "name-desc" then
    repos.insertionSort (fun a b => lexLeB b.name a.name = true)
  else if sortOption = jstr "updated-desc" then
    repos.insertionSort (fun a b => b.updated_at ≤ a.updated_at)
  else if sortOption = jstr "updated-asc" then
    repos.insertionSort (fun a b => a.updated_at ≤ b.updated_at)
  else
    repos.insertionSort (fun a b => b.stargazers_count ≤ a.stargazers_count)

/-- `applyFilters`, as the list it computes (the subsequent rendering is
out of scope): search filter when a search string is set, then language,
topic and custom-tag filters when active, then sort.  `none` models the
`TypeError` the search filter throws on a `null` description. -/
def applyFilters (f : Filters) (repos : List Repo) : Option (List Repo) :=
  (if f.search.isEmpty then some repos else optionFilter (searchPred f.search) repos).map
    (fun l =>
      let l2 := if f.language.isEmpty then l else l.filter (langPred f)
      let l3 := if f.topics.isEmpty then l2 else l2.filter (topicPred f)
      let l4 := if f.customTags.isEmpty then l3 else l3.filter (tagPred f)
      sortRepositories l4 f.sort)

/-! ## Filter-state mutations (event handlers in `filters.js`) -/

/-- The debounced search-input handler: store the lowercased, trimmed
input value. -/
def searchInputCommit (f : Filters) (v : JStr) : Filters :=
  { f with search := jsTrim (jsToLower v) }

/-- The language-dropdown change handler. -/
def languageChange (f : Filters) (v : JStr) : Filters := { f with language := v }

/-- The sort-dropdown change handler. -/
def sortChange (f : Filters) (v : JStr) : Filters := { f with sort := v }

/-- The `removeFilter` event, `search` case. -/
def removeSearchChip (f : Filters) : Filters := { f with search := [] }

/-- The `removeFilter` event, `language` case. -/
def removeLanguageChip (f : Filters) : Filters := { f with language := [] }

/-- The `removeFilter` event, `topic` case. -/
def removeTopicChip (f : Filters) (v : JStr) : Filters :=
  { f with topics := f.topics.filter (fun t => t ≠ v) }

/-- The `removeFilter` event, `customTag` case. -/
def removeCustomTagChip (f : Filters) (v : JStr) : Filters :=
  { f with customTags := f.customTags.filter (fun t => t ≠ v) }

/-- The `filterByTopic` event: append the topic unless already selected. -/
def filterByTopic (f : Filters) (t : JStr) : Filters :=
  if t ∈ f.topics then f else { f with topics := f.topics ++ [t] }

/-- The `filterByCustomTag` event. -/
def filterByCustomTag (f : Filters) (g : JStr) : Filters :=
  if g ∈ f.customTags then f else { f with customTags := f.customTags ++ [g] }

/-- `clearFilters`: reset to the defaults. -/
def clearFiltersState : Filters := defaultFilters

/-- URL query parameters read at load (`none` = parameter absent). -/
structure URLParams where
  search : Option JStr
  language : Option JStr
  topic : Option JStr
  sort : Option JStr

/-- `String.prototype.split(',')`. -/
def splitCommaAux : JStr → JStr → List JStr
  | [], cur => [cur.reverse]
  | c :: t, cur => if c = 44 then cur.reverse :: splitCommaAux t [] else splitCommaAux t (c :: cur)

/-- Split a string on commas (`topic` parameter decoding). -/
def splitComma (s : JStr) : List JStr := splitCommaAux s []

/-- `initURLFilters`: install each present query parameter into the filter
state, verbatim (the search parameter is neither lowercased nor trimmed). -/
def initURLFilters (f : Filters) (p : URLParams) : Filters :=
  let f1 := match p.search with | none => f | some v => { f with search := v }
  let f2 := match p.language with | none => f1 | some v => { f1 with language := v }
  let f3 := match p.topic with | none => f2 | some v => { f2 with topics := splitComma v }
  match p.sort with | none => f3 | some v => { f3 with sort := v }

/-- Filter states reachable from the defaults by user-interaction event
handlers alone (no URL initialisation). -/
inductive UserReach : Filters → Prop
  | start : UserReach defaultFilters
  | searchInput (f v) : UserReach f → UserReach (searchInputCommit f v)
  | langSelect (f v) : UserReach f → UserReach (languageChange f v)
  | sortSelect (f v) : UserReach f → UserReach (sortChange f v)
  | rmSearch (f) : UserReach f → UserReach (removeSearchChip f)
  | rmLang (f) : UserReach f → UserReach (removeLanguageChip f)
  | rmTopic (f v) : UserReach f → UserReach (removeTopicChip f v)
  | rmTag (f v) : UserReach f → UserReach (removeCustomTagChip f v)
  | byTopic (f t) : UserReach f → UserReach (filterByTopic f t)
  | byTag (f g) : UserReach f → UserReach (filterByCustomTag f g)
  | clearAll (f) : UserReach f → UserReach clearFiltersState

/-- A string that is already lowercase and trimmed. -/
def LowerTrimmed (s : JStr) : Prop := jsToLower s = s ∧ jsTrim s = s

/-! ## Unique-tag listing (`getAllUniqueTags`, local path) -/

/-- `Set.prototype.add` on an insertion-ordered duplicate-free list. -/
def setAdd (s : List JStr) (x : JStr) : List JStr := if x ∈ s then s else s ++ [x]

/-- Scan of every stored key, accumulating the tags of tag entries into a
set; `JSON.parse` is not guarded here, so a parse failure aborts (`none`). -/
def collectTags : Storage → List JStr → Option (List JStr)
  | [], acc => some acc
  | (k, v) :: t, acc =>
    if CUSTOM_TAGS_K.isPrefixOf k then
      match parseTags v with
      | none => none
      | some ts => collectTags t (ts.foldl setAdd acc)
    else collectTags t acc

/-- `getAllUniqueTags` (local path): `Array.from(tags).sort()`. -/
def getAllUniqueTagsLocal (st : Storage) : Option (List JStr) :=
  (collectTags st []).map (fun l => l.insertionSort (fun a b => lexLeB a b = true))

/-! ## Individual filter predicates (for the conjunctivity statement) -/

/-- A record matches the search filter: no search string set, or the
search callback returns a match. -/
def searchOK (f : Filters) (r : Repo) : Prop :=
  f.search = [] ∨ searchPred f.search r = some true

/-- A record matches the language filter. -/
def langOK (f : Filters) (r : Repo) : Prop := f.language = [] ∨ langPred f r = true

/-- A record matches the topic filter. -/
def topicOK (f : Filters) (r : Repo) : Prop := f.topics = [] ∨ topicPred f r = true

/-- A record matches the custom-tag filter. -/
def tagOK (f : Filters) (r : Repo) : Prop := f.customTags = [] ∨ tagPred f r = true

/-! ## Import-payload shape (the documented export format) -/

/-- A JSON value shaped like the export's `tags` member:
an object mapping ids to arrays of strings. -/
def TagMapShaped : JVal → Prop
  | .obj fields => ∀ p ∈ fields, ∃ l, p.2 = .arr l ∧ ∀ e ∈ l, ∃ s, e = .str s
  | _ => False

/-- A JSON value shaped like the export's `notes` member:
an object mapping ids to strings. -/
def NoteMapShaped : JVal → Prop
  | .obj fields => ∀ p ∈ fields, ∃ s, p.2 = .str s
  | _ => False

/-- A well-formed import payload per the documented export format. -/
def WellFormedPayload (v : JVal) : Prop :=
  TagMapShaped (jGet v (jstr "tags")) ∧ NoteMapShaped (jGet v (jstr "notes"))

/-- A payload whose `tags` and `notes` members are truthy but not of the
export shape. -/
def badPayload : JVal := .obj [(jstr "tags", .bool true), (jstr "notes", .bool true)]

/-- A repository record with a `null` description (as GitHub delivers for
repositories without one) whose name does not contain the letter `z`. -/
def nullDescRepo : Repo :=
  { id := 1, name := jstr "alpha", full_name := jstr "user/alpha",
    owner := { login := jstr "user", avatar_url := [] },
    description := none, language := none, topics := some [],
    stargazers_count := 10, updated_at := 0, html_url := [],
    custom_tags := some [], notes := none }

/-- Decimal reconstruction mirror of `natToStrAux` (used to reason about
`parseInt` of a rendered number). -/
def pushDec : Nat → Nat → Nat → Nat
  | 0, _, v => v
  | fuel + 1, n, v => if n = 0 then v else pushDec fuel (n / 10) v * 10 + n % 10

/-! # Theorems

## Storage lemmas -/


theorem lookup_setItem_self (st : Storage) (k v : JStr) :
    lookupKey (setItem st k v) k = some v := by
  induction st with
  | nil => simp [setItem, lookupKey]
  | cons p t ih =>
    obtain ⟨k', v'⟩ := p
    by_cases h : k' = k
    · simp [setItem, h, lookupKey]
    · simp [setItem, h, lookupKey, ih]

theorem lookup_setItem_ne (st : Storage) (k v q : JStr) (h : q ≠ k) :
    lookupKey (setItem st k v) q = lookupKey st q := by
  have h' : k ≠ q := Ne.symm h
  induction st with
  | nil => simp [setItem, lookupKey, h']
  | cons p t ih =>
    obtain ⟨k', v'⟩ := p
    by_cases h1 : k' = k
    · subst h1
      simp [setItem, lookupKey, h']
    · by_cases h2 : k' = q <;> simp [setItem, lookupKey, h1, h2, h, ih]

theorem lookup_eq_none_of_not_mem (st : Storage) (k : JStr)
    (h : k ∉ st.map Prod.fst) : lookupKey st k = none := by
  induction st with
  | nil => rfl
  | cons p t ih =>
    obtain ⟨k', v'⟩ := p
    simp only [List.map_cons, List.mem_cons] at h
    push_neg at h
    have h' : k' ≠ k := Ne.symm h.1
    simp [lookupKey, h', ih h.2]

theorem lookup_removeItem_self (st : Storage) (k : JStr) (h : KeysNodup st) :
    lookupKey (removeItem st k) k = none := by
  induction st with
  | nil => rfl
  | cons p t ih =>
    obtain ⟨k', v'⟩ := p
    simp only [KeysNodup, List.map_cons, List.nodup_cons] at h
    by_cases h1 : k' = k
    · subst h1
      simp only [removeItem, if_pos rfl]
      exact lookup_eq_none_of_not_mem t k' h.1
    · simp [removeItem, h1, lookupKey, ih h.2]

theorem lookup_removeItem_ne (st : Storage) (k q : JStr) (h : q ≠ k) :
    lookupKey (removeItem st k) q = lookupKey st q := by
  induction st with
  | nil => rfl
  | cons p t ih =>
    obtain ⟨k', v'⟩ := p
    by_cases h1 : k' = k
    · subst h1
      have h2 : k' ≠ q := Ne.symm h
      simp [removeItem, lookupKey, h2]
    · by_cases h2 : k' = q <;> simp [removeItem, lookupKey, h1, h2, h, ih]

theorem lookup_of_mem_nodup (st : Storage) (k v : JStr)
    (hm : (k, v) ∈ st) (hn : KeysNodup st) : lookupKey st k = some v := by
  induction st with
  | nil => cases hm
  | cons p t ih =>
    obtain ⟨k', v'⟩ := p
    simp only [KeysNodup, List.map_cons, List.nodup_cons] at hn
    rcases List.mem_cons.mp hm with h | h
    · rw [Prod.mk.injEq] at h
      obtain ⟨h1, h2⟩ := h
      subst h1
      subst h2
      simp [lookupKey]
    · have h' : k' ≠ k := by
        rintro rfl
        exact hn.1 (List.mem_map_of_mem Prod.fst h)
      simp [lookupKey, h', ih h hn.2]

/-! ## C1 — search step on a null description -/

/-- C1: the claim that the search step is total and never fails on a
record with a `null` description does not hold of the code: the filter
callback evaluates `repo.description.toLowerCase()` whenever the name
does not already match, which throws a `TypeError` when `description` is
`null`; on such a record the whole recomputation throws. -/
theorem search_filter_throws_on_null_description :
    searchPred (jstr "z") nullDescRepo = none ∧
    applyFilters { defaultFilters with search := jstr "z" } [nullDescRepo] = none := by
  decide

/-! ## C3 — setNotes trims only for the emptiness test -/

/-- C3 counterexample: `setNotes` stores the original, untrimmed text
(`" hi"`), not the trimmed text, whenever the trim is non-empty. -/
theorem setNotes_untrimmed_counterexample :
    lookupKey (setNotes [] 1 [32, 104, 105]) (noteKey 1) = some [32, 104, 105] ∧
    jsTrim [32, 104, 105] = [104, 105] ∧ ([32, 104, 105] : JStr) ≠ [104, 105] := by
  decide

/-- C3 (amended): `setNotes` stores the text as given when its trim is
non-empty, and deletes the entry when the trim is empty; after a deleting
write, `getNotes` returns the empty string and no entry exists. -/
theorem setNotes_trim_behavior (st : Storage) (id : Nat) (notes : JStr)
    (h : KeysNodup st) :
    (jsTrim notes ≠ [] → lookupKey (setNotes st id notes) (noteKey id) = some notes) ∧
    (jsTrim notes = [] →
      lookupKey (setNotes st id notes) (noteKey id) = none ∧
      getNotes (setNotes st id notes) id = []) := by
  constructor
  · intro hne
    have : ¬(jsTrim notes).isEmpty := by simp [List.isEmpty_iff, hne]
    simp only [setNotes, if_neg this]
    exact lookup_setItem_self st (noteKey id) notes
  · intro he
    have h1 : (jsTrim notes).isEmpty := by simp [List.isEmpty_iff, he]
    have h2 : lookupKey (setNotes st id notes) (noteKey id) = none := by
      simp only [setNotes, if_pos h1]
      exact lookup_removeItem_self st (noteKey id) h
    exact ⟨h2, by simp [getNotes, h2]⟩

/-- C3 witness: a whitespace-only write on the empty store. -/
theorem setNotes_trim_behavior_witness :
    lookupKey (setNotes [] 7 [32, 32]) (noteKey 7) = none ∧
    getNotes (setNotes [] 7 [32, 32]) 7 = [] :=
  (setNotes_trim_behavior [] 7 [32, 32] List.nodup_nil).2 (by decide)

/-! ## C6 — the merge step -/

/-- C6: `mergeCustomData` populates `custom_tags` and `notes` from the
store for the record's id and leaves every other field unchanged.  (The
claim's final clause — that the records handed to the filter engine at
load time are such enriched records — fails in the code: `init` maps this
async function over the list without awaiting, handing the filter engine
pending promises; see the claim record.) -/
theorem mergeCustomData_enriches (st : Storage) (repo : Repo) :
    (mergeCustomData st repo).custom_tags = some (getCustomTags st repo.id) ∧
    (mergeCustomData st repo).notes = some (getNotes st repo.id) ∧
    (mergeCustomData st repo).id = repo.id ∧
    (mergeCustomData st repo).name = repo.name ∧
    (mergeCustomData st repo).full_name = repo.full_name ∧
    (mergeCustomData st repo).owner = repo.owner ∧
    (mergeCustomData st repo).description = repo.description ∧
    (mergeCustomData st repo).language = repo.language ∧
    (mergeCustomData st repo).topics = repo.topics ∧
    (mergeCustomData st repo).stargazers_count = repo.stargazers_count ∧
    (mergeCustomData st repo).updated_at = repo.updated_at ∧
    (mergeCustomData st repo).html_url = repo.html_url :=
  ⟨rfl, rfl, rfl, rfl, rfl, rfl, rfl, rfl, rfl, rfl, rfl, rfl⟩

/-! ## C7 — loader fallback -/

/-- C7 counterexample: on a failed fetch the loader's fallback has an
empty repository list, but its metadata is a placeholder object — not
`null` as the claim states. -/
theorem loadStarsData_metadata_not_null :
    (loadStarsData .networkError).repositories = [] ∧
    (loadStarsData .networkError).metadata ≠ none := by
  decide

/-- C7 (amended): for every malformed or unreachable fetch outcome the
loader returns the fallback structure — empty repository list and a
placeholder metadata object (null last-updated, configured username, zero
total, version "1.0") — and, the whole body being wrapped in try/catch,
never propagates a thrown error. -/
theorem loadStarsData_fallback (o : FetchOutcome) (h : badOutcome o) :
    loadStarsData o = fallbackStarsData := by
  cases o with
  | networkError => rfl
  | httpError s => rfl
  | parseError => rfl
  | success body =>
    obtain ⟨m, r⟩ := body
    cases m with
    | none => rfl
    | some mv =>
      cases r with
      | none => rfl
      | some rv => rcases h with h | h <;> exact Option.noConfusion h

/-- C7 witness: the network-error outcome. -/
theorem loadStarsData_fallback_witness :
    loadStarsData .networkError = fallbackStarsData :=
  loadStarsData_fallback .networkError trivial

/-! ## C8 — import validation -/

/-- C8 counterexample: a payload whose `tags` and `notes` members are
truthy but not of the export shape is malformed, yet `importCustomData`
accepts it (returns success; here it happens to write nothing). -/
theorem importCustomData_accepts_malformed :
    ¬ WellFormedPayload badPayload ∧ importCustomData [] badPayload = (true, []) := by
  constructor
  · intro h
    have h1 : jGet badPayload (jstr "tags") = .bool true := rfl
    have h2 := h.1
    rw [h1] at h2
    exact h2
  · decide

/-- C8 (amended): `importCustomData` rejects — returns failure with the
store untouched — exactly the payloads whose `tags` or `notes` member is
missing or falsy; truthier malformed payloads are not validated further. -/
theorem importCustomData_rejects_missing_fields (st : Storage) (data : JVal)
    (h : jTruthy (jGet data (jstr "tags")) = false ∨
         jTruthy (jGet data (jstr "notes")) = false) :
    importCustomData st data = (false, st) := by
  unfold importCustomData
  rcases h with h | h <;> simp [h]

/-- C8 witness: a `null` payload on the empty store. -/
theorem importCustomData_rejects_missing_fields_witness :
    importCustomData [] .null = (false, []) :=
  importCustomData_rejects_missing_fields [] .null (Or.inl rfl)

/-! ## C2 — conjunctivity of the filter pipeline -/

theorem mem_optionFilter {α : Type} (p : α → Option Bool) (l res : List α)
    (h : optionFilter p l = some res) (x : α) :
    x ∈ res ↔ x ∈ l ∧ p x = some true := by
  induction l generalizing res with
  | nil =>
    simp only [optionFilter, Option.some.injEq] at h
    subst h
    simp
  | cons y ys ih =>
    cases hp : p y with
    | none => simp [optionFilter, hp] at h
    | some b =>
      cases hof : optionFilter p ys with
      | none => simp [optionFilter, hp, hof] at h
      | some res' =>
        have hys := ih res' hof
        simp only [optionFilter, hp, hof, Option.map_some', Option.some.injEq] at h
        subst h
        cases b with
        | true =>
          simp only [Bool.cond_true, List.mem_cons, hys]
          constructor
          · rintro (rfl | ⟨hx, hpx⟩)
            · exact ⟨Or.inl rfl, hp⟩
            · exact ⟨Or.inr hx, hpx⟩
          · rintro ⟨rfl | hx, hpx⟩
            · exact Or.inl rfl
            · exact Or.inr ⟨hx, hpx⟩
        | false =>
          simp only [Bool.cond_false, hys, List.mem_cons]
          constructor
          · rintro ⟨hx, hpx⟩
            exact ⟨Or.inr hx, hpx⟩
          · rintro ⟨rfl | hx, hpx⟩
            · rw [hp] at hpx
              cases hpx
            · exact ⟨hx, hpx⟩

theorem mem_sortRepositories (repos : List Repo) (so : JStr) (r : Repo) :
    r ∈ sortRepositories repos so ↔ r ∈ repos := by
  unfold sortRepositories
  split_ifs <;> exact (List.perm_insertionSort _ _).mem_iff

theorem mem_filter_guard {α : Type} (gd : Bool) (p : α → Bool) (l : List α) (x : α) :
    x ∈ (if gd then l else l.filter p) ↔ x ∈ l ∧ (gd = true ∨ p x = true) := by
  by_cases h : gd <;> simp [h, List.mem_filter]

/-- C2: the result of filter recomputation contains exactly the input
records matching all four individual filter predicates — filtering is
conjunctive.  (The hypothesis that the recomputation returns a value
excludes the thrown `TypeError` of C1.) -/
theorem applyFilters_conjunctive (f : Filters) (repos res : List Repo)
    (h : applyFilters f repos = some res) (r : Repo) :
    r ∈ res ↔ r ∈ repos ∧ searchOK f r ∧ langOK f r ∧ topicOK f r ∧ tagOK f r := by
  unfold applyFilters at h
  cases hof : (if f.search.isEmpty then some repos
               else optionFilter (searchPred f.search) repos) with
  | none => rw [hof] at h; cases h
  | some l =>
    rw [hof] at h
    simp only [Option.map_some', Option.some.injEq] at h
    subst h
    have h1 : r ∈ l ↔ r ∈ repos ∧ searchOK f r := by
      by_cases hs : f.search.isEmpty
      · rw [if_pos hs] at hof
        have hse : f.search = [] := List.isEmpty_iff.mp hs
        injection hof with hof
        subst hof
        simp [searchOK, hse]
      · rw [if_neg hs] at hof
        rw [mem_optionFilter _ _ _ hof r]
        have hse : f.search ≠ [] := fun hh => hs (by simp [hh])
        unfold searchOK
        constructor
        · rintro ⟨hm, hp⟩
          exact ⟨hm, Or.inr hp⟩
        · rintro ⟨hm, hse' | hp⟩
          · exact absurd hse' hse
          · exact ⟨hm, hp⟩
    rw [mem_sortRepositories, mem_filter_guard, mem_filter_guard, mem_filter_guard, h1]
    unfold langOK topicOK tagOK
    simp only [List.isEmpty_iff]
    tauto

/-- C2 witness: the default (all-empty) filter state on a one-record list. -/
theorem applyFilters_conjunctive_witness :
    applyFilters defaultFilters [nullDescRepo] = some [nullDescRepo] ∧
    (nullDescRepo ∈ [nullDescRepo] ↔
      nullDescRepo ∈ [nullDescRepo] ∧ searchOK defaultFilters nullDescRepo ∧
      langOK defaultFilters nullDescRepo ∧ topicOK defaultFilters nullDescRepo ∧
      tagOK defaultFilters nullDescRepo) :=
  ⟨by decide,
   applyFilters_conjunctive defaultFilters [nullDescRepo] [nullDescRepo] (by decide) nullDescRepo⟩

/-! ## C9 — normalisation of the search string -/

theorem lowerChar_idem (c : Nat) : lowerChar (lowerChar c) = lowerChar c := by
  unfold lowerChar
  split_ifs <;> omega

theorem jsToLower_idem (s : JStr) : jsToLower (jsToLower s) = jsToLower s := by
  induction s with
  | nil => rfl
  | cons c t ih =>
    simp only [jsToLower, List.map_cons, List.cons.injEq] at *
    exact ⟨lowerChar_idem c, ih⟩

theorem isWS_lowerChar (c : Nat) : isWS (lowerChar c) = isWS c := by
  by_cases h : 65 ≤ c ∧ c ≤ 90
  · have e1 : isWS (c + 32) = false := by simp [isWS]; omega
    have e2 : isWS c = false := by simp [isWS]; omega
    simp [lowerChar, h, e1, e2]
  · simp [lowerChar, h]

theorem dropWhile_map_lower (l : JStr) :
    (l.map lowerChar).dropWhile isWS = (l.dropWhile isWS).map lowerChar := by
  induction l with
  | nil => rfl
  | cons c t ih =>
    simp only [List.map_cons, List.dropWhile_cons, isWS_lowerChar]
    by_cases h : isWS c = true
    · simp [h, ih]
    · simp [h]

theorem dropWhile_dropWhile (p : Nat → Bool) (l : List Nat) :
    (l.dropWhile p).dropWhile p = l.dropWhile p := by
  induction l with
  | nil => rfl
  | cons c t ih =>
    by_cases h : p c = true
    · simp [List.dropWhile_cons, h, ih]
    · simp [List.dropWhile_cons, h]

theorem head_false_of_dropWhile (p : Nat → Bool) (l : List Nat) (c : Nat) (t : List Nat)
    (h : l.dropWhile p = c :: t) : p c = false := by
  induction l with
  | nil => cases h
  | cons d m ih =>
    by_cases hp : p d = true
    · rw [List.dropWhile_cons, if_pos hp] at h
      exact ih h
    · rw [List.dropWhile_cons, if_neg hp] at h
      injection h with h1 _
      subst h1
      simpa using hp

theorem dropWhile_trimEnd_self (x : List Nat) (hx : x.dropWhile isWS = x) :
    ((x.reverse.dropWhile isWS).reverse).dropWhile isWS = (x.reverse.dropWhile isWS).reverse := by
  cases hyc : (x.reverse.dropWhile isWS).reverse with
  | nil => rfl
  | cons c t =>
    have hyne : x.reverse.dropWhile isWS ≠ [] := by
      intro hh
      rw [hh] at hyc
      cases hyc
    obtain ⟨pre, hpre⟩ := List.dropWhile_suffix (l := x.reverse) isWS
    have h1 : some c = (x.reverse.dropWhile isWS).reverse.head? := by rw [hyc]; rfl
    have h2 : (x.reverse.dropWhile isWS).reverse.head? = (x.reverse.dropWhile isWS).getLast? :=
      List.head?_reverse _
    have h3 : (x.reverse.dropWhile isWS).getLast? = x.reverse.getLast? := by
      have hh := List.getLast?_append_of_ne_nil pre hyne
      rw [hpre] at hh
      exact hh.symm
    have h4 : x.reverse.getLast? = x.head? := by
      rw [← List.head?_reverse x.reverse, List.reverse_reverse]
    have hc : some c = x.head? := by rw [h1, h2, h3, h4]
    cases hxc : x with
    | nil =>
      rw [hxc] at hc
      cases hc
    | cons c' t' =>
      rw [hxc] at hc
      injection hc with hc
      have hc' : isWS c' = false := head_false_of_dropWhile isWS x c' t' (by rw [hx, hxc])
      subst hc
      rw [List.dropWhile_cons, if_neg (by simp [hc'])]

theorem jsTrim_idem (l : JStr) : jsTrim (jsTrim l) = jsTrim l := by
  unfold jsTrim
  rw [dropWhile_trimEnd_self (l.dropWhile isWS) (dropWhile_dropWhile isWS l),
      List.reverse_reverse, dropWhile_dropWhile]

theorem jsToLower_trim_comm (s : JStr) : jsTrim (jsToLower s) = jsToLower (jsTrim s) := by
  unfold jsTrim jsToLower
  rw [dropWhile_map_lower, ← List.map_reverse, dropWhile_map_lower, ← List.map_reverse]

theorem lowerTrimmed_commit (v : JStr) : LowerTrimmed (jsTrim (jsToLower v)) := by
  constructor
  · rw [← jsToLower_trim_comm, jsToLower_idem]
  · exact jsTrim_idem _

/-- C9 counterexample: a state initialised from the URL query parameter
`search=A` carries the raw value `"A"`, which is neither lowercased nor
trimmed by `initURLFilters`. -/
theorem urlFilters_search_not_normalized :
    (initURLFilters defaultFilters ⟨some [65], none, none, none⟩).search = [65] ∧
    ¬ LowerTrimmed (initURLFilters defaultFilters ⟨some [65], none, none, none⟩).search := by
  refine ⟨rfl, ?_⟩
  intro h
  have h1 := h.1
  rw [show (initURLFilters defaultFilters ⟨some [65], none, none, none⟩).search = [65] from rfl] at h1
  exact absurd h1 (by decide)

/-- C9 (amended): in every state reachable from the defaults by user
mutations, the search string is lowercase and trimmed (the search handler
stores the lowercased, trimmed input and no other mutation writes a
non-empty search string); URL initialisation, by contrast, stores the raw
query parameter. -/
theorem userReach_search_normalized (f : Filters) (h : UserReach f) :
    LowerTrimmed f.search := by
  induction h with
  | start => exact ⟨rfl, rfl⟩
  | searchInput f v _ _ => exact lowerTrimmed_commit v
  | langSelect f v _ ih => exact ih
  | sortSelect f v _ ih => exact ih
  | rmSearch f _ _ => exact ⟨rfl, rfl⟩
  | rmLang f _ ih => exact ih
  | rmTopic f v _ ih => exact ih
  | rmTag f v _ ih => exact ih
  | byTopic f t _ ih => by_cases hc : t ∈ f.topics <;> simpa [filterByTopic, hc] using ih
  | byTag f g _ ih => by_cases hc : g ∈ f.customTags <;> simpa [filterByCustomTag, hc] using ih
  | clearAll f _ _ => exact ⟨rfl, rfl⟩

/-- C9 witness: the state after one search input on the defaults. -/
theorem userReach_search_normalized_witness :
    LowerTrimmed (searchInputCommit defaultFilters (jstr "  Hello ")).search :=
  userReach_search_normalized _ (UserReach.searchInput _ _ UserReach.start)

/-! ## Round trip of the tag-array codec -/

theorem parseStrBody_cons (c : Nat) (rest : JStr) :
    parseStrBody (c :: rest) =
      if c = 34 then some ([], rest)
      else if c = 92 then
        match rest with
        | [] => none
        | c' :: rest' => (parseStrBody rest').map (fun p => (c' :: p.1, p.2))
      else (parseStrBody rest).map (fun p => (c :: p.1, p.2)) := by
  rw [parseStrBody.eq_def]
  rfl

theorem parseStrBody_enc (s k : JStr) :
    parseStrBody (s.flatMap escChar ++ 34 :: k) = some (s, k) := by
  induction s with
  | nil => simp [parseStrBody_cons]
  | cons c t ih =>
    by_cases h : c = 34 ∨ c = 92
    · have he : escChar c = [92, c] := by simp [escChar, h]
      simp only [List.flatMap_cons, he, List.append_assoc, List.cons_append, List.nil_append]
      simp [parseStrBody_cons, ih]
    · push_neg at h
      have he : escChar c = [c] := by simp [escChar, h.1, h.2]
      simp only [List.flatMap_cons, he, List.append_assoc, List.cons_append, List.nil_append]
      simp [parseStrBody_cons, h.1, h.2, ih]

theorem parseItems_enc (ts : List JStr) (fuel : Nat) (hne : ts ≠ [])
    (hfuel : (encList ts ++ [93]).length ≤ fuel) :
    parseItems fuel (encList ts ++ [93]) = some ts := by
  induction ts generalizing fuel with
  | nil => exact absurd rfl hne
  | cons t ts' ih =>
    cases ts' with
    | nil =>
      cases fuel with
      | zero => simp [encList, encStr] at hfuel
      | succ f =>
        simp only [encList, encStr, List.cons_append, List.append_assoc, List.singleton_append]
        simp [parseItems, parseStrBody_enc t [93]]
    | cons t2 ts'' =>
      cases fuel with
      | zero => simp [encList, encStr] at hfuel
      | succ f =>
        have hrw : encList (t :: t2 :: ts'') ++ [93]
            = 34 :: (t.flatMap escChar ++ 34 :: (44 :: (encList (t2 :: ts'') ++ [93]))) := by
          simp [encList, encStr, List.append_assoc]
        rw [hrw]
        have hf2 : (encList (t2 :: ts'') ++ [93]).length ≤ f := by
          rw [hrw] at hfuel
          simp only [List.length_cons, List.length_append] at hfuel ⊢
          omega
        simp [parseItems, parseStrBody_enc t (44 :: (encList (t2 :: ts'') ++ [93])),
              ih f (by simp) hf2]

theorem parseTags_encTags (ts : List JStr) : parseTags (encTags ts) = some ts := by
  cases ts with
  | nil => rfl
  | cons t ts' =>
    have hsh : ∃ w, encList (t :: ts') = 34 :: w := by
      cases ts' with
      | nil => exact ⟨t.flatMap escChar ++ [34], rfl⟩
      | cons a b =>
        refine ⟨(t.flatMap escChar ++ [34]) ++ 44 :: encList (a :: b), ?_⟩
        rw [encList.eq_def]
        rfl
    obtain ⟨w, hw⟩ := hsh
    have hne : encList (t :: ts') ++ [93] ≠ [93] := by
      rw [hw]
      intro hh
      injection hh with h1 _
      omega
    show parseTags (91 :: (encList (t :: ts') ++ [93])) = some (t :: ts')
    simp only [parseTags, if_neg hne]
    exact parseItems_enc (t :: ts') _ (by simp) le_rfl

theorem jsonStringifyList_str (ts : List JStr) :
    jsonStringifyList (ts.map .str) = encList ts := by
  cases ts with
  | nil => rfl
  | cons t ts' =>
    induction ts' generalizing t with
    | nil => rfl
    | cons t2 ts'' ih =>
      simp only [List.map_cons, jsonStringifyList, jsonStringify, encList]
      rw [show (JVal.str t2 :: List.map JVal.str ts'')
            = List.map JVal.str (t2 :: ts'') from rfl, ih t2]

theorem jsonStringify_arr_str (ts : List JStr) :
    jsonStringify (.arr (ts.map .str)) = encTags ts := by
  simp [jsonStringify, encTags, jsonStringifyList_str]

theorem getCustomTags_setCustomTags (st : Storage) (id : Nat) (ts : List JStr) :
    getCustomTags (setCustomTags st id ts) id = ts := by
  unfold getCustomTags setCustomTags setCustomTagsRaw
  rw [show CUSTOM_TAGS_K ++ natToStr id = tagKey id from rfl,
      lookup_setItem_self, jsonStringify_arr_str]
  have h1 : (encTags ts).isEmpty = false := rfl
  simp [h1, parseTags_encTags ts]

/-! ## C4 — duplicate tags -/

/-- C4 counterexample: `setCustomTags` stores whatever list it is given,
duplicates included — the no-duplicates invariant is not enforced by the
storage layer (nor, hence, by import, which calls it). -/
theorem setCustomTags_duplicates_counterexample :
    getCustomTags (setCustomTags [] 1 [[97], [97]]) 1 = [[97], [97]] ∧
    ¬ ([[97], [97]] : List JStr).Nodup := by
  refine ⟨getCustomTags_setCustomTags [] 1 [[97], [97]], ?_⟩
  decide

/-- C4 (amended): only the card tag-add handler enforces uniqueness.
Adding a tag through it, then adding any input with the same normalised
(trimmed, lowercased) form again, leaves state unchanged, and if the tag
was new the in-memory list and the stored list both hold exactly one
occurrence.  `setCustomTags` and import write their argument verbatim. -/
theorem addTag_no_duplicates (st : Storage) (repo : Repo) (v w : JStr)
    (hv : jsTrim v ≠ []) (hw : jsTrim w ≠ [])
    (hvw : jsToLower (jsTrim w) = jsToLower (jsTrim v))
    (hnew : jsToLower (jsTrim v) ∉ repo.custom_tags.getD []) :
    addTag (addTag st repo v).1 (addTag st repo v).2 w = addTag st repo v ∧
    ((addTag st repo v).2.custom_tags.getD []).count (jsToLower (jsTrim v)) = 1 ∧
    getCustomTags (addTag st repo v).1 repo.id = (addTag st repo v).2.custom_tags.getD [] := by
  have hvE : ¬(jsTrim v).isEmpty = true := by simp [List.isEmpty_iff, hv]
  have hwE : ¬(jsTrim w).isEmpty = true := by simp [List.isEmpty_iff, hw]
  have h1 : addTag st repo v =
      (setCustomTags st repo.id (repo.custom_tags.getD [] ++ [jsToLower (jsTrim v)]),
       { repo with custom_tags := some (repo.custom_tags.getD [] ++ [jsToLower (jsTrim v)]) }) := by
    unfold addTag
    rw [if_neg hvE, if_neg hnew]
  rw [h1]
  refine ⟨?_, ?_, ?_⟩
  · unfold addTag
    rw [if_neg hwE]
    have hmem : jsToLower (jsTrim w) ∈
        (Option.some (repo.custom_tags.getD [] ++ [jsToLower (jsTrim v)])).getD [] := by
      rw [hvw]
      simp
    rw [if_pos hmem]
  · simp only [Option.getD_some, List.count_append]
    rw [List.count_eq_zero.mpr hnew]
    simp [List.count_cons]
  · simp only [Option.getD_some]
    exact getCustomTags_setCustomTags st repo.id _

/-- C4 witness: adding `"Cool "` then `"cool"` to a record with no tags. -/
theorem addTag_no_duplicates_witness :
    addTag (addTag [] nullDescRepo (jstr "Cool ")).1 (addTag [] nullDescRepo (jstr "Cool ")).2
        (jstr "cool") = addTag [] nullDescRepo (jstr "Cool ") ∧
    ((addTag [] nullDescRepo (jstr "Cool ")).2.custom_tags.getD []).count
        (jsToLower (jsTrim (jstr "Cool "))) = 1 ∧
    getCustomTags (addTag [] nullDescRepo (jstr "Cool ")).1 nullDescRepo.id =
        (addTag [] nullDescRepo (jstr "Cool ")).2.custom_tags.getD [] :=
  addTag_no_duplicates [] nullDescRepo (jstr "Cool ") (jstr "cool")
    (by decide) (by decide) (by decide) (by decide)

/-! ## C10 — getAllUniqueTags -/

theorem lexLeB_total : ∀ a b : List Nat, lexLeB a b = true ∨ lexLeB b a = true := by
  intro a
  induction a with
  | nil => intro b; exact Or.inl rfl
  | cons x xs ih =>
    intro b
    cases b with
    | nil => exact Or.inr rfl
    | cons y ys =>
      by_cases h1 : x < y
      · exact Or.inl (by simp [lexLeB, h1])
      · by_cases h2 : y < x
        · exact Or.inr (by simp [lexLeB, h2])
        · have hxy : x = y := by omega
          subst hxy
          rcases ih ys with h | h
          · exact Or.inl (by simp [lexLeB, h])
          · exact Or.inr (by simp [lexLeB, h])

theorem lexLeB_trans : ∀ a b c : List Nat,
    lexLeB a b = true → lexLeB b c = true → lexLeB a c = true := by
  intro a
  induction a with
  | nil => intro b c _ _; rfl
  | cons x xs ih =>
    intro b c hab hbc
    cases b with
    | nil => simp [lexLeB] at hab
    | cons y ys =>
      cases c with
      | nil => simp [lexLeB] at hbc
      | cons z zs =>
        simp only [lexLeB] at hab hbc ⊢
        by_cases hxy : x < y
        · by_cases hyz : y < z
          · simp [show x < z by omega]
          · by_cases hzy : z < y
            · simp [hyz, hzy] at hbc
            · have : y = z := by omega
              subst this
              simp [hxy]
        · by_cases hyx : y < x
          · simp [hxy, hyx] at hab
          · have : x = y := by omega
            subst this
            simp only [Nat.lt_irrefl, if_false] at hab
            by_cases hxz : x < z
            · simp [hxz]
            · by_cases hzx : z < x
              · simp [hxz, hzx] at hbc
              · have : x = z := by omega
                subst this
                simp only [Nat.lt_irrefl, if_false] at hbc ⊢
                exact ih ys zs hab hbc

instance : IsTotal JStr (fun a b => lexLeB a b = true) := ⟨lexLeB_total⟩

instance : IsTrans JStr (fun a b => lexLeB a b = true) := ⟨lexLeB_trans⟩

theorem mem_setAdd (s : List JStr) (x t : JStr) : t ∈ setAdd s x ↔ t ∈ s ∨ t = x := by
  by_cases h : x ∈ s
  · rw [setAdd, if_pos h]
    constructor
    · exact fun hh => Or.inl hh
    · rintro (hh | rfl)
      exacts [hh, h]
  · rw [setAdd, if_neg h]
    simp

theorem nodup_setAdd (s : List JStr) (x : JStr) (h : s.Nodup) : (setAdd s x).Nodup := by
  by_cases hx : x ∈ s
  · rw [setAdd, if_pos hx]
    exact h
  · rw [setAdd, if_neg hx]
    simp [List.nodup_append, h, hx]

theorem mem_foldl_setAdd (ts : List JStr) (acc : List JStr) (t : JStr) :
    t ∈ ts.foldl setAdd acc ↔ t ∈ acc ∨ t ∈ ts := by
  induction ts generalizing acc with
  | nil => simp
  | cons x xs ih =>
    rw [List.foldl_cons, ih, mem_setAdd]
    simp only [List.mem_cons]
    tauto

theorem nodup_foldl_setAdd (ts : List JStr) (acc : List JStr) (h : acc.Nodup) :
    (ts.foldl setAdd acc).Nodup := by
  induction ts generalizing acc with
  | nil => exact h
  | cons x xs ih => exact ih _ (nodup_setAdd _ _ h)

theorem tagsK_isPrefixOf_tagKey (id : Nat) :
    CUSTOM_TAGS_K.isPrefixOf (tagKey id) = true :=
  List.isPrefixOf_iff_prefix.mpr ⟨natToStr id, rfl⟩

theorem tagsK_not_prefix_noteKey (id : Nat) :
    CUSTOM_TAGS_K.isPrefixOf (noteKey id) = false := by
  apply Bool.eq_false_iff.mpr
  intro h
  obtain ⟨w, hw⟩ := List.isPrefixOf_iff_prefix.mp h
  have h1 := congrArg List.head? hw
  rw [show CUSTOM_TAGS_K = 99 :: jstr "ustom_tags_" from rfl] at h1
  rw [show noteKey id = 110 :: (jstr "otes_" ++ natToStr id) from rfl] at h1
  simp at h1

theorem tagKey_ne_noteKey (a b : Nat) : tagKey a ≠ noteKey b := by
  intro h
  have h1 := congrArg List.head? h
  rw [show tagKey a = 99 :: (jstr "ustom_tags_" ++ natToStr a) from rfl] at h1
  rw [show noteKey b = 110 :: (jstr "otes_" ++ natToStr b) from rfl] at h1
  simp at h1

theorem encTags_inj (ts1 ts2 : List JStr) (h : encTags ts1 = encTags ts2) : ts1 = ts2 := by
  have hh := congrArg parseTags h
  rw [parseTags_encTags, parseTags_encTags] at hh
  injection hh

theorem collectTags_spec (st : Storage)
    (hwf : ∀ p ∈ st, (∃ id ts, p = (tagKey id, encTags ts)) ∨
                     (∃ id nts, p = (noteKey id, nts) ∧ jsTrim nts ≠ [])) :
    ∀ acc : List JStr, acc.Nodup →
      ∃ l, collectTags st acc = some l ∧ l.Nodup ∧
        (∀ t, t ∈ l ↔ t ∈ acc ∨ ∃ id ts, (tagKey id, encTags ts) ∈ st ∧ t ∈ ts) := by
  induction st with
  | nil =>
    intro acc hacc
    exact ⟨acc, rfl, hacc, by simp⟩
  | cons p rest ih =>
    intro acc hacc
    have hwf' : ∀ q ∈ rest, (∃ id ts, q = (tagKey id, encTags ts)) ∨
        (∃ id nts, q = (noteKey id, nts) ∧ jsTrim nts ≠ []) :=
      fun q hq => hwf q (List.mem_cons_of_mem p hq)
    rcases hwf p (List.mem_cons_self p rest) with ⟨id, ts, rfl⟩ | ⟨id, nts, hp, hnts⟩
    · obtain ⟨l, hl, hnd, hmem⟩ := ih hwf' (ts.foldl setAdd acc) (nodup_foldl_setAdd ts acc hacc)
      refine ⟨l, ?_, hnd, ?_⟩
      · simp [collectTags, tagsK_isPrefixOf_tagKey id, parseTags_encTags ts, hl]
      · intro t
        rw [hmem t, mem_foldl_setAdd]
        constructor
        · rintro ((hta | hts) | ⟨id', ts', hin, htin⟩)
          · exact Or.inl hta
          · exact Or.inr ⟨id, ts, List.mem_cons_self _ _, hts⟩
          · exact Or.inr ⟨id', ts', List.mem_cons_of_mem _ hin, htin⟩
        · rintro (hta | ⟨id', ts', hin, htin⟩)
          · exact Or.inl (Or.inl hta)
          · rcases List.mem_cons.mp hin with heq | hin'
            · rw [Prod.mk.injEq] at heq
              rw [encTags_inj ts' ts heq.2] at htin
              exact Or.inl (Or.inr htin)
            · exact Or.inr ⟨id', ts', hin', htin⟩
    · subst hp
      obtain ⟨l, hl, hnd, hmem⟩ := ih hwf' acc hacc
      refine ⟨l, ?_, hnd, ?_⟩
      · simp [collectTags, tagsK_not_prefix_noteKey id, hl]
      · intro t
        rw [hmem t]
        constructor
        · rintro (hta | ⟨id', ts', hin, htin⟩)
          · exact Or.inl hta
          · exact Or.inr ⟨id', ts', List.mem_cons_of_mem _ hin, htin⟩
        · rintro (hta | ⟨id', ts', hin, htin⟩)
          · exact Or.inl hta
          · rcases List.mem_cons.mp hin with heq | hin'
            · rw [Prod.mk.injEq] at heq
              exact absurd heq.1 (tagKey_ne_noteKey id' id)
            · exact Or.inr ⟨id', ts', hin', htin⟩

/-- C10: on a reachable store, the local `getAllUniqueTags` succeeds and
returns a duplicate-free list, sorted ascending in the string order, whose
members are exactly the tags occurring in some repository's stored list. -/
theorem getAllUniqueTags_spec (st : Storage) (h : WFStore st) :
    ∃ out, getAllUniqueTagsLocal st = some out ∧ out.Nodup ∧
      out.Sorted (fun a b => lexLeB a b = true) ∧
      (∀ t, t ∈ out ↔ ∃ id ts, (tagKey id, encTags ts) ∈ st ∧ t ∈ ts) := by
  obtain ⟨l, hl, hnd, hmem⟩ := collectTags_spec st h.1 [] List.nodup_nil
  refine ⟨l.insertionSort (fun a b => lexLeB a b = true), ?_, ?_, ?_, ?_⟩
  · simp [getAllUniqueTagsLocal, hl]
  · exact ((List.perm_insertionSort (fun a b => lexLeB a b = true) l).nodup_iff).mpr hnd
  · exact List.sorted_insertionSort (fun a b => lexLeB a b = true) l
  · intro t
    rw [(List.perm_insertionSort (fun a b => lexLeB a b = true) l).mem_iff, hmem t]
    simp

/-- C10 witness: a store holding the tag list `["b", "a"]` for id 1. -/
theorem getAllUniqueTags_spec_witness :
    ∃ out, getAllUniqueTagsLocal [(tagKey 1, encTags [[98], [97]])] = some out ∧ out.Nodup ∧
      out.Sorted (fun a b => lexLeB a b = true) ∧
      (∀ t, t ∈ out ↔
        ∃ id ts, (tagKey id, encTags ts) ∈ [(tagKey 1, encTags [[98], [97]])] ∧ t ∈ ts) :=
  getAllUniqueTags_spec [(tagKey 1, encTags [[98], [97]])]
    ⟨by
      intro p hp
      rw [List.mem_singleton] at hp
      exact Or.inl ⟨1, [[98], [97]], hp⟩,
     by simp [KeysNodup]⟩

/-! ## C5 — number rendering and parsing -/

theorem natToStrAux_digits : ∀ (fuel n : Nat) (acc : JStr),
    (∀ c ∈ acc, 48 ≤ c ∧ c ≤ 57) → ∀ c ∈ natToStrAux fuel n acc, 48 ≤ c ∧ c ≤ 57 := by
  intro fuel
  induction fuel with
  | zero => intro n acc hacc; simpa [natToStrAux] using hacc
  | succ f ih =>
    intro n acc hacc
    by_cases hn : n = 0
    · simpa [natToStrAux, hn] using hacc
    · simp only [natToStrAux, if_neg hn]
      apply ih
      intro c hc
      rcases List.mem_cons.mp hc with rfl | hc'
      · have := Nat.mod_lt n (show 0 < 10 by omega)
        omega
      · exact hacc c hc'

theorem natToStrAux_length : ∀ (fuel n : Nat) (acc : JStr),
    acc.length ≤ (natToStrAux fuel n acc).length := by
  intro fuel
  induction fuel with
  | zero => intro n acc; simp [natToStrAux]
  | succ f ih =>
    intro n acc
    by_cases hn : n = 0
    · simp [natToStrAux, hn]
    · simp only [natToStrAux, if_neg hn]
      calc acc.length ≤ ((48 + n % 10) :: acc).length := by simp
        _ ≤ _ := ih (n / 10) _

theorem foldl_natToStrAux : ∀ (fuel n : Nat), n ≤ fuel → ∀ (acc : JStr) (v : Nat),
    (natToStrAux fuel n acc).foldl (fun a c => a * 10 + (c - 48)) v
      = acc.foldl (fun a c => a * 10 + (c - 48)) (pushDec fuel n v) := by
  intro fuel
  induction fuel with
  | zero =>
    intro n hn acc v
    have : n = 0 := by omega
    simp [natToStrAux, pushDec, this]
  | succ f ih =>
    intro n hn acc v
    by_cases hz : n = 0
    · simp [natToStrAux, pushDec, hz]
    · simp only [natToStrAux, pushDec, if_neg hz]
      have hdiv : n / 10 < n := Nat.div_lt_self (Nat.pos_of_ne_zero hz) (by omega)
      rw [ih (n / 10) (by omega) _ v]
      simp only [List.foldl_cons]
      congr 1
      omega

theorem pushDec_eval : ∀ (fuel n : Nat), n ≤ fuel → pushDec fuel n 0 = n := by
  intro fuel
  induction fuel with
  | zero =>
    intro n hn
    have : n = 0 := by omega
    simp [pushDec, this]
  | succ f ih =>
    intro n hn
    by_cases hz : n = 0
    · simp [pushDec, hz]
    · simp only [pushDec, if_neg hz]
      have hdiv : n / 10 < n := Nat.div_lt_self (Nat.pos_of_ne_zero hz) (by omega)
      rw [ih (n / 10) (by omega)]
      omega

theorem natToStr_digits (n : Nat) : ∀ c ∈ natToStr n, 48 ≤ c ∧ c ≤ 57 := by
  by_cases hn : n = 0
  · simp [natToStr, hn]
  · simp only [natToStr, if_neg hn]
    exact natToStrAux_digits n n [] (by simp)

theorem natToStr_ne_nil (n : Nat) : natToStr n ≠ [] := by
  by_cases hn : n = 0
  · simp [natToStr, hn]
  · simp only [natToStr, if_neg hn]
    cases n with
    | zero => exact absurd rfl hn
    | succ m =>
      simp only [natToStrAux, if_neg hn]
      have := natToStrAux_length m ((m + 1) / 10) [48 + (m + 1) % 10]
      intro hh
      rw [hh] at this
      simp at this

theorem takeWhile_digits (l : JStr) (h : ∀ c ∈ l, 48 ≤ c ∧ c ≤ 57) :
    l.takeWhile (fun c => decide (48 ≤ c) && decide (c ≤ 57)) = l := by
  induction l with
  | nil => rfl
  | cons c t ih =>
    have hc := h c (List.mem_cons_self c t)
    rw [List.takeWhile_cons, if_pos (by simp [hc.1, hc.2])]
    rw [ih (fun d hd => h d (List.mem_cons_of_mem c hd))]

theorem jsParseInt_natToStr (n : Nat) : jsParseInt (natToStr n) = some n := by
  unfold jsParseInt
  rw [takeWhile_digits _ (natToStr_digits n)]
  rw [if_neg (by simp [List.isEmpty_iff, natToStr_ne_nil n])]
  congr 1
  by_cases hn : n = 0
  · simp [natToStr, hn]
  · rw [show natToStr n = natToStrAux n n [] by simp [natToStr, hn]]
    rw [foldl_natToStrAux n n le_rfl [] 0]
    simp only [List.foldl_nil]
    exact pushDec_eval n n le_rfl

theorem natToStr_inj (a b : Nat) (h : natToStr a = natToStr b) : a = b := by
  have hh := congrArg jsParseInt h
  rw [jsParseInt_natToStr, jsParseInt_natToStr] at hh
  injection hh

theorem idStrOf_natToStr (n : Nat) : idStrOf (natToStr n) = natToStr n := by
  simp [idStrOf, jsParseInt_natToStr]

theorem tagKey_inj (a b : Nat) (h : tagKey a = tagKey b) : a = b := by
  have hh := congrArg (List.drop CUSTOM_TAGS_K.length) h
  rw [show tagKey a = CUSTOM_TAGS_K ++ natToStr a from rfl,
      show tagKey b = CUSTOM_TAGS_K ++ natToStr b from rfl,
      List.drop_left, List.drop_left] at hh
  exact natToStr_inj a b hh

theorem noteKey_inj (a b : Nat) (h : noteKey a = noteKey b) : a = b := by
  have hh := congrArg (List.drop NOTES_K.length) h
  rw [show noteKey a = NOTES_K ++ natToStr a from rfl,
      show noteKey b = NOTES_K ++ natToStr b from rfl,
      List.drop_left, List.drop_left] at hh
  exact natToStr_inj a b hh

theorem tagsK_app_ne_notesK_app (a b : JStr) : CUSTOM_TAGS_K ++ a ≠ NOTES_K ++ b := by
  intro h
  have h1 := congrArg List.head? h
  rw [show CUSTOM_TAGS_K = 99 :: jstr "ustom_tags_" from rfl,
      show NOTES_K = 110 :: jstr "otes_" from rfl] at h1
  simp at h1

theorem mem_of_lookup (st : Storage) (k v : JStr) (h : lookupKey st k = some v) :
    (k, v) ∈ st := by
  induction st with
  | nil => cases h
  | cons p t ih =>
    obtain ⟨k', v'⟩ := p
    by_cases hk : k' = k
    · subst hk
      rw [lookupKey, if_pos rfl] at h
      injection h with h
      subst h
      exact List.mem_cons_self _ _
    · rw [lookupKey, if_neg hk] at h
      exact List.mem_cons_of_mem _ (ih h)

theorem notesK_isPrefixOf_noteKey (id : Nat) :
    NOTES_K.isPrefixOf (noteKey id) = true :=
  List.isPrefixOf_iff_prefix.mpr ⟨natToStr id, rfl⟩

theorem getAllCustomDataAux_spec (st : Storage)
    (hwf : ∀ p ∈ st, (∃ id ts, p = (tagKey id, encTags ts)) ∨
                     (∃ id nts, p = (noteKey id, nts) ∧ jsTrim nts ≠ []))
    (hnd : KeysNodup st) :
    ∃ tl nl, getAllCustomDataAux st = some (tl, nl) ∧
      (∀ q, q ∈ tl ↔ ∃ id ts, q = (natToStr id, ts) ∧ (tagKey id, encTags ts) ∈ st) ∧
      (∀ q, q ∈ nl ↔ ∃ id nts, q = (natToStr id, nts) ∧ (noteKey id, nts) ∈ st) ∧
      (tl.map Prod.fst).Nodup ∧ (nl.map Prod.fst).Nodup := by
  induction st with
  | nil => exact ⟨[], [], rfl, by simp, by simp, by simp, by simp⟩
  | cons p rest ih =>
    have hwf' : ∀ q ∈ rest, (∃ id ts, q = (tagKey id, encTags ts)) ∨
        (∃ id nts, q = (noteKey id, nts) ∧ jsTrim nts ≠ []) :=
      fun q hq => hwf q (List.mem_cons_of_mem p hq)
    have hnd' : KeysNodup rest := by
      simp only [KeysNodup, List.map_cons, List.nodup_cons] at hnd
      exact hnd.2
    have hhd : p.1 ∉ rest.map Prod.fst := by
      simp only [KeysNodup, List.map_cons, List.nodup_cons] at hnd
      exact hnd.1
    obtain ⟨tl', nl', haux, htl', hnl', htlnd', hnlnd'⟩ := ih hwf' hnd'
    rcases hwf p (List.mem_cons_self p rest) with ⟨id, ts, rfl⟩ | ⟨id, nts, hp, hnts⟩
    · refine ⟨(natToStr id, ts) :: tl', nl', ?_, ?_, ?_, ?_, hnlnd'⟩
      · simp [getAllCustomDataAux, tagsK_isPrefixOf_tagKey id, parseTags_encTags ts, haux,
              show tagKey id = CUSTOM_TAGS_K ++ natToStr id from rfl, List.drop_left]
      · intro q
        rw [List.mem_cons, htl' q]
        constructor
        · rintro (rfl | ⟨id', ts', rfl, hin⟩)
          · exact ⟨id, ts, rfl, List.mem_cons_self _ _⟩
          · exact ⟨id', ts', rfl, List.mem_cons_of_mem _ hin⟩
        · rintro ⟨id', ts', rfl, hin⟩
          rcases List.mem_cons.mp hin with heq | hin'
          · rw [Prod.mk.injEq] at heq
            rw [tagKey_inj id' id heq.1, encTags_inj ts' ts heq.2]
            exact Or.inl rfl
          · exact Or.inr ⟨id', ts', rfl, hin'⟩
      · intro q
        rw [hnl' q]
        constructor
        · rintro ⟨id', nts', rfl, hin⟩
          exact ⟨id', nts', rfl, List.mem_cons_of_mem _ hin⟩
        · rintro ⟨id', nts', rfl, hin⟩
          rcases List.mem_cons.mp hin with heq | hin'
          · rw [Prod.mk.injEq] at heq
            exact absurd heq.1.symm (tagsK_app_ne_notesK_app _ _)
          · exact ⟨id', nts', rfl, hin'⟩
      · simp only [List.map_cons, List.nodup_cons]
        refine ⟨?_, htlnd'⟩
        intro hmm
        rw [List.mem_map] at hmm
        obtain ⟨q, hq, hfst⟩ := hmm
        obtain ⟨id', ts', rfl, hin⟩ := (htl' q).mp hq
        have : id' = id := natToStr_inj id' id hfst
        subst this
        apply hhd
        simpa using List.mem_map_of_mem Prod.fst hin
    · subst hp
      refine ⟨tl', (natToStr id, nts) :: nl', ?_, ?_, ?_, htlnd', ?_⟩
      · have hnp : ¬ CUSTOM_TAGS_K <+: NOTES_K ++ natToStr id := by
          rintro ⟨w, hw⟩
          exact tagsK_app_ne_notesK_app w (natToStr id) hw
        have hpp : NOTES_K <+: NOTES_K ++ natToStr id := ⟨natToStr id, rfl⟩
        simp [getAllCustomDataAux, show noteKey id = NOTES_K ++ natToStr id from rfl,
              hnp, hpp, haux, List.drop_left]
      · intro q
        rw [htl' q]
        constructor
        · rintro ⟨id', ts', rfl, hin⟩
          exact ⟨id', ts', rfl, List.mem_cons_of_mem _ hin⟩
        · rintro ⟨id', ts', rfl, hin⟩
          rcases List.mem_cons.mp hin with heq | hin'
          · rw [Prod.mk.injEq] at heq
            exact absurd heq.1 (tagsK_app_ne_notesK_app _ _)
          · exact ⟨id', ts', rfl, hin'⟩
      · intro q
        rw [List.mem_cons, hnl' q]
        constructor
        · rintro (rfl | ⟨id', nts', rfl, hin⟩)
          · exact ⟨id, nts, rfl, List.mem_cons_self _ _⟩
          · exact ⟨id', nts', rfl, List.mem_cons_of_mem _ hin⟩
        · rintro ⟨id', nts', rfl, hin⟩
          rcases List.mem_cons.mp hin with heq | hin'
          · rw [Prod.mk.injEq] at heq
            rw [noteKey_inj id' id heq.1, heq.2]
            exact Or.inl rfl
          · exact Or.inr ⟨id', nts', rfl, hin'⟩
      · simp only [List.map_cons, List.nodup_cons]
        refine ⟨?_, hnlnd'⟩
        intro hmm
        rw [List.mem_map] at hmm
        obtain ⟨q, hq, hfst⟩ := hmm
        obtain ⟨id', nts', rfl, hin⟩ := (hnl' q).mp hq
        have : id' = id := natToStr_inj id' id hfst
        subst this
        apply hhd
        simpa using List.mem_map_of_mem Prod.fst hin

theorem lookup_foldl_setItem_notMem (l : List (JStr × JStr)) (st0 : Storage) (k : JStr)
    (h : k ∉ l.map Prod.fst) :
    lookupKey (l.foldl (fun s q => setItem s q.1 q.2) st0) k = lookupKey st0 k := by
  induction l generalizing st0 with
  | nil => rfl
  | cons q t ih =>
    simp only [List.map_cons, List.mem_cons] at h
    push_neg at h
    rw [List.foldl_cons, ih _ h.2, lookup_setItem_ne _ _ _ _ h.1]

theorem lookup_foldl_setItem_mem (l : List (JStr × JStr)) (st0 : Storage) (k v : JStr)
    (hnd : (l.map Prod.fst).Nodup) (hm : (k, v) ∈ l) :
    lookupKey (l.foldl (fun s q => setItem s q.1 q.2) st0) k = some v := by
  induction l generalizing st0 with
  | nil => cases hm
  | cons q t ih =>
    simp only [List.map_cons, List.nodup_cons] at hnd
    rcases List.mem_cons.mp hm with heq | hmem
    · subst heq
      rw [List.foldl_cons, lookup_foldl_setItem_notMem t _ k hnd.1, lookup_setItem_self]
    · rw [List.foldl_cons]
      exact ih (setItem st0 q.1 q.2) hnd.2 hmem

theorem foldl_ext_mem {α β : Type} (f g : β → α → β) (l : List α)
    (h : ∀ x ∈ l, ∀ s, f s x = g s x) : ∀ b, l.foldl f b = l.foldl g b := by
  induction l with
  | nil => intro b; rfl
  | cons x t ih =>
    intro b
    rw [List.foldl_cons, List.foldl_cons, h x (List.mem_cons_self x t) b]
    exact ih (fun y hy => h y (List.mem_cons_of_mem x hy)) _

theorem getCustomTags_eq_of_lookup (s : Storage) (id : Nat) (ts : List JStr)
    (h : lookupKey s (tagKey id) = some (encTags ts)) : getCustomTags s id = ts := by
  unfold getCustomTags
  rw [h]
  have h1 : (encTags ts).isEmpty = false := rfl
  simp [h1, parseTags_encTags ts]

/-- C5: exporting all custom data from a reachable store and importing the
export into a fresh (empty) store reproduces, for every repository id with
a tags (resp. notes) entry in the original store, the same tag list and
the same notes text. -/
theorem export_import_roundtrip (st : Storage) (now : JStr) (h : WFStore st) :
    ∃ cd, getAllCustomData st now = some cd ∧
      (∀ id, lookupKey st (tagKey id) ≠ none →
        getCustomTags (importCustomData [] (exportJVal cd)).2 id = getCustomTags st id) ∧
      (∀ id, lookupKey st (noteKey id) ≠ none →
        getNotes (importCustomData [] (exportJVal cd)).2 id = getNotes st id) := by
  obtain ⟨hwf, hnd⟩ := h
  obtain ⟨tl, nl, haux, htl, hnl, htlnd, hnlnd⟩ := getAllCustomDataAux_spec st hwf hnd
  have hfin : (importCustomData [] (exportJVal ⟨tl, nl, now⟩)).2
      = (nl.map (fun p => (p.1, JVal.str p.2))).foldl
          (fun s p => setNotesJ s (idStrOf p.1) p.2)
          ((tl.map (fun p => (p.1, JVal.arr (p.2.map JVal.str)))).foldl
            (fun s p => setCustomTagsRaw s (idStrOf p.1) p.2) []) := rfl
  have htagfold :
      (tl.map (fun p => (p.1, JVal.arr (p.2.map JVal.str)))).foldl
        (fun s p => setCustomTagsRaw s (idStrOf p.1) p.2) ([] : Storage)
      = (tl.map (fun q => (CUSTOM_TAGS_K ++ idStrOf q.1, encTags q.2))).foldl
          (fun s q => setItem s q.1 q.2) [] := by
    rw [List.foldl_map, List.foldl_map]
    simp only [setCustomTagsRaw, jsonStringify_arr_str]
  have hnltrim : ∀ q ∈ nl, jsTrim q.2 ≠ [] := by
    intro q hq
    obtain ⟨id', nts', rfl, hin⟩ := (hnl q).mp hq
    rcases hwf _ hin with ⟨a, ts, heq⟩ | ⟨a, nts2, heq, htr⟩
    · rw [Prod.mk.injEq] at heq
      exact absurd heq.1.symm (tagsK_app_ne_notesK_app _ _)
    · rw [Prod.mk.injEq] at heq
      simpa [heq.2] using htr
  have hnotefold : ∀ st0 : Storage,
      (nl.map (fun p => (p.1, JVal.str p.2))).foldl
        (fun s p => setNotesJ s (idStrOf p.1) p.2) st0
      = (nl.map (fun q => (NOTES_K ++ idStrOf q.1, q.2))).foldl
          (fun s q => setItem s q.1 q.2) st0 := by
    intro st0
    rw [List.foldl_map, List.foldl_map]
    refine foldl_ext_mem _ _ nl ?_ st0
    intro q hq s
    have hne : ¬(jsTrim q.2).isEmpty = true := by simp [List.isEmpty_iff, hnltrim q hq]
    show setNotesJ s (idStrOf q.1) (.str q.2) = setItem s (NOTES_K ++ idStrOf q.1) q.2
    unfold setNotesJ
    simp [hne]
  have hwlnd : ((tl.map (fun q => (CUSTOM_TAGS_K ++ idStrOf q.1, encTags q.2))).map
      Prod.fst).Nodup := by
    rw [List.map_map, show (Prod.fst ∘ fun q : JStr × List JStr =>
          (CUSTOM_TAGS_K ++ idStrOf q.1, encTags q.2))
        = (fun f => CUSTOM_TAGS_K ++ idStrOf f) ∘ Prod.fst from rfl, ← List.map_map]
    apply List.Nodup.map_on ?_ htlnd
    intro x hx y hy hxy
    rw [List.mem_map] at hx hy
    obtain ⟨qx, hqx, rfl⟩ := hx
    obtain ⟨qy, hqy, rfl⟩ := hy
    obtain ⟨a, tsa, rfl, _⟩ := (htl qx).mp hqx
    obtain ⟨b, tsb, rfl, _⟩ := (htl qy).mp hqy
    simp only [idStrOf_natToStr] at hxy
    have hab := congrArg (List.drop CUSTOM_TAGS_K.length) hxy
    rw [List.drop_left, List.drop_left] at hab
    simpa using hab
  have hwl2nd : ((nl.map (fun q => (NOTES_K ++ idStrOf q.1, q.2))).map Prod.fst).Nodup := by
    rw [List.map_map, show (Prod.fst ∘ fun q : JStr × JStr =>
          (NOTES_K ++ idStrOf q.1, q.2))
        = (fun f => NOTES_K ++ idStrOf f) ∘ Prod.fst from rfl, ← List.map_map]
    apply List.Nodup.map_on ?_ hnlnd
    intro x hx y hy hxy
    rw [List.mem_map] at hx hy
    obtain ⟨qx, hqx, rfl⟩ := hx
    obtain ⟨qy, hqy, rfl⟩ := hy
    obtain ⟨a, ntsa, rfl, _⟩ := (hnl qx).mp hqx
    obtain ⟨b, ntsb, rfl, _⟩ := (hnl qy).mp hqy
    simp only [idStrOf_natToStr] at hxy
    have hab := congrArg (List.drop NOTES_K.length) hxy
    rw [List.drop_left, List.drop_left] at hab
    simpa using hab
  refine ⟨⟨tl, nl, now⟩, by simp [getAllCustomData, haux], ?_, ?_⟩
  · intro rid hidne
    cases hvl : lookupKey st (tagKey rid) with
    | none => exact absurd hvl hidne
    | some val =>
      have hmemst := mem_of_lookup st _ _ hvl
      rcases hwf _ hmemst with ⟨a, ts, heq⟩ | ⟨a, nts, heq, _⟩
      · rw [Prod.mk.injEq] at heq
        obtain ⟨hk, hv⟩ := heq
        have ha : a = rid := (tagKey_inj rid a hk).symm
        subst a
        subst hv
        have hpass : lookupKey
            ((nl.map (fun q => (NOTES_K ++ idStrOf q.1, q.2))).foldl
              (fun s q => setItem s q.1 q.2)
              ((tl.map (fun q => (CUSTOM_TAGS_K ++ idStrOf q.1, encTags q.2))).foldl
                (fun s q => setItem s q.1 q.2) [])) (tagKey rid)
            = lookupKey
              ((tl.map (fun q => (CUSTOM_TAGS_K ++ idStrOf q.1, encTags q.2))).foldl
                (fun s q => setItem s q.1 q.2) []) (tagKey rid) := by
          apply lookup_foldl_setItem_notMem
          intro hmm
          rw [List.map_map, List.mem_map] at hmm
          obtain ⟨q, _, heqk⟩ := hmm
          exact tagsK_app_ne_notesK_app (natToStr rid) (idStrOf q.1) heqk.symm
        have hwmem : (tagKey rid, encTags ts) ∈
            tl.map (fun q => (CUSTOM_TAGS_K ++ idStrOf q.1, encTags q.2)) := by
          rw [List.mem_map]
          refine ⟨(natToStr rid, ts), (htl _).mpr ⟨rid, ts, rfl, hmemst⟩, ?_⟩
          simp [idStrOf_natToStr, tagKey]
        have hlook := lookup_foldl_setItem_mem _ [] (tagKey rid) (encTags ts) hwlnd hwmem
        rw [hfin, hnotefold, htagfold,
            getCustomTags_eq_of_lookup _ rid ts (hpass.trans hlook)]
        exact (getCustomTags_eq_of_lookup st rid ts hvl).symm
      · rw [Prod.mk.injEq] at heq
        exact absurd heq.1 (tagsK_app_ne_notesK_app _ _)
  · intro rid hidne
    cases hvl : lookupKey st (noteKey rid) with
    | none => exact absurd hvl hidne
    | some val =>
      have hmemst := mem_of_lookup st _ _ hvl
      rcases hwf _ hmemst with ⟨a, ts, heq⟩ | ⟨a, nts, heq, _⟩
      · rw [Prod.mk.injEq] at heq
        exact absurd heq.1.symm (tagsK_app_ne_notesK_app _ _)
      · rw [Prod.mk.injEq] at heq
        obtain ⟨hk, hv⟩ := heq
        have ha : a = rid := (noteKey_inj rid a hk).symm
        subst a
        have hw2mem : (noteKey rid, val) ∈
            nl.map (fun q => (NOTES_K ++ idStrOf q.1, q.2)) := by
          rw [List.mem_map]
          refine ⟨(natToStr rid, val), (hnl _).mpr ⟨rid, val, rfl, hmemst⟩, ?_⟩
          simp [idStrOf_natToStr, noteKey]
        have hlook := lookup_foldl_setItem_mem _
            ((tl.map (fun q => (CUSTOM_TAGS_K ++ idStrOf q.1, encTags q.2))).foldl
              (fun s q => setItem s q.1 q.2) []) (noteKey rid) val hwl2nd hw2mem
        rw [hfin, hnotefold, htagfold]
        unfold getNotes
        rw [hlook, hvl]

/-- C5 witness: a store with one tag entry (id 1) and one notes entry (id 2). -/
theorem export_import_roundtrip_witness :
    ∃ cd, getAllCustomData [(tagKey 1, encTags [[97]]), (noteKey 2, [104])] [] = some cd ∧
      (∀ id, lookupKey [(tagKey 1, encTags [[97]]), (noteKey 2, [104])] (tagKey id) ≠ none →
        getCustomTags (importCustomData [] (exportJVal cd)).2 id =
          getCustomTags [(tagKey 1, encTags [[97]]), (noteKey 2, [104])] id) ∧
      (∀ id, lookupKey [(tagKey 1, encTags [[97]]), (noteKey 2, [104])] (noteKey id) ≠ none →
        getNotes (importCustomData [] (exportJVal cd)).2 id =
          getNotes [(tagKey 1, encTags [[97]]), (noteKey 2, [104])] id) :=
  export_import_roundtrip [(tagKey 1, encTags [[97]]), (noteKey 2, [104])] []
    ⟨by
      intro p hp
      rcases List.mem_cons.mp hp with rfl | hp'
      · exact Or.inl ⟨1, [[97]], rfl⟩
      · rw [List.mem_singleton] at hp'
        subst hp'
        exact Or.inr ⟨2, [104], rfl, by decide⟩,
     by
      simp only [KeysNodup, List.map_cons, List.map_nil, List.nodup_cons]
      refine ⟨?_, by simp⟩
      simp only [List.mem_singleton, List.not_mem_nil, or_false, List.mem_cons]
      exact fun hh => tagsK_app_ne_notesK_app (natToStr 1) (natToStr 2) hh⟩
